import Mathlib

/-
Verification of the hyperparameter search & model selection engine described by
the repository's specification, as exercised by the notebooks
`Chap_10_MNIST_Fashion_KerasTuner.ipynb` (Keras-Tuner random search) and
`Chap_2_Housing_GridSearch-checkpoint.ipynb` (sklearn grid search with k-fold
cross-validation).  The notebooks only call into the tuning libraries, so the
engine itself (SearchSpace, candidate generators, evaluator, trial tracker,
orchestrator) is modelled from the spec; the notebook-level code (`build_model`,
the train/validation/test split) is embedded directly from the source.
-/

set_option maxHeartbeats 1000000

namespace MLExamples

/-- Modelled from the spec: a hyperparameter value.  Categorical members are
strings, integer-range values are integers, float-range values are real
numbers (the spec's float hyperparameters, e.g. `learning_rate`). -/
inductive Value where
  | cat (s : String)
  | int (i : Int)
  | float (r : ℝ)

/-- Modelled from the spec: the domain of one hyperparameter — an explicit
categorical set, an integer range `[lo, hi]`, or a float range `[lo, hi]` with
an optional log-scale flag.  Range endpoints are rationals so that
well-formedness checks are decidable; sampled float values live in `ℝ`. -/
inductive SpecDomain where
  | categorical (choices : List String)
  | intRange (lo hi : Int)
  | floatRange (lo hi : ℚ) (logScale : Bool)

/-- Modelled from the spec: a named hyperparameter declaration. -/
structure HyperparameterSpec where
  name : String
  domain : SpecDomain

/-- Modelled from the spec: a SearchSpace maps hyperparameter names to specs;
declaration order matters for enumeration, so it is kept as a list. -/
abbrev SearchSpace := List HyperparameterSpec

/-- Modelled from the spec: a Configuration assigns a concrete value to every
hyperparameter, in declaration order. -/
abbrev Configuration := List (String × Value)

/-- Modelled from the spec: validity of one domain declaration — non-empty
distinct categorical choices, `min < max` for ranges, and `min > 0` whenever
log-scale sampling is requested. -/
def SpecDomain.wf : SpecDomain → Prop
  | .categorical cs => cs ≠ [] ∧ cs.Nodup
  | .intRange lo hi => lo < hi
  | .floatRange lo hi logScale => lo < hi ∧ (logScale = true → 0 < lo)

instance (d : SpecDomain) : Decidable d.wf := by
  cases d with
  | categorical cs => exact inferInstanceAs (Decidable (cs ≠ [] ∧ cs.Nodup))
  | intRange lo hi => exact inferInstanceAs (Decidable (lo < hi))
  | floatRange lo hi ls =>
      exact inferInstanceAs (Decidable (lo < hi ∧ (ls = true → 0 < lo)))

/-- Modelled from the spec: a well-formed SearchSpace has unique hyperparameter
names and only valid domains. -/
def SearchSpace.wf (space : SearchSpace) : Prop :=
  (space.map HyperparameterSpec.name).Nodup ∧ ∀ s ∈ space, s.domain.wf

instance (space : SearchSpace) : Decidable space.wf := by
  exact inferInstanceAs (Decidable (_ ∧ _))

/-- Modelled from the spec: a value is in-domain for a spec — a categorical
value is a member of the choice set, an integer-range value lies in
`[lo, hi]` inclusive, a float-range value lies in `[lo, hi]`. -/
def inDomain : Value → SpecDomain → Prop
  | .cat s, .categorical cs => s ∈ cs
  | .int i, .intRange lo hi => lo ≤ i ∧ i ≤ hi
  | .float r, .floatRange lo hi _ => (lo : ℝ) ≤ r ∧ r ≤ (hi : ℝ)
  | _, _ => False

/-- Modelled from the spec: a configuration is complete and in-domain for a
space — one entry per declared spec, names matching in declaration order,
every value in its spec's domain. -/
def conformsTo (space : SearchSpace) (c : Configuration) : Prop :=
  List.Forall₂ (fun s p => p.1 = s.name ∧ inDomain p.2 s.domain) space c

/-- Modelled from the spec: one step of the seeded pseudo-random stream feeding
the random candidate generator (a 64-bit linear congruential generator). -/
def lcgNext (s : Nat) : Nat :=
  (6364136223846793005 * s + 1442695040888963407) % 2 ^ 64

/-- Modelled from the spec: a draw in the unit interval extracted from one
pseudo-random word. -/
def unitDraw (r : Nat) : ℚ := ((r % 2 ^ 32 : ℕ) : ℚ) / 2 ^ 32

/-- Modelled from the spec: `sample` draws one in-domain value for a spec from
one pseudo-random word — categorical: choice among the members; integer-range:
integer in `[lo, hi]` inclusive; float-range: a point of `[lo, hi]`, drawn
uniformly in `[log lo, log hi]` and exponentiated when log-scale. -/
noncomputable def SpecDomain.sampleVal : SpecDomain → Nat → Value
  | .categorical cs, r => .cat (cs.getD (r % cs.length) "")
  | .intRange lo hi, r => .int (lo + ((r % ((hi - lo).toNat + 1) : ℕ) : Int))
  | .floatRange lo hi false, r =>
      .float ((lo : ℝ) + (unitDraw r : ℝ) * ((hi : ℝ) - (lo : ℝ)))
  | .floatRange lo hi true, r =>
      .float (Real.exp (Real.log (lo : ℝ) +
        (unitDraw r : ℝ) * (Real.log (hi : ℝ) - Real.log (lo : ℝ))))

/-- Modelled from the spec: sample one complete configuration, threading the
pseudo-random state through the specs in declaration order. -/
noncomputable def sampleConfig : SearchSpace → Nat → Configuration × Nat
  | [], s => ([], s)
  | spec :: rest, s =>
      let s' := lcgNext s
      let p := sampleConfig rest s'
      ((spec.name, spec.domain.sampleVal s') :: p.1, p.2)

/-- Modelled from the spec: the configuration sequence of a seeded random
search — `budget` samples drawn from one sequential pseudo-random stream. -/
noncomputable def randomCandidatesFrom (space : SearchSpace) : Nat → Nat → List Configuration
  | _s, 0 => []
  | s, n + 1 =>
      let p := sampleConfig space s
      p.1 :: randomCandidatesFrom space p.2 n

/-- Modelled from the spec: RandomCandidateGenerator(space, seed, budget)
produces exactly `budget` configurations from the seeded stream. -/
noncomputable def randomCandidates (space : SearchSpace) (seed budget : Nat) :
    List Configuration :=
  randomCandidatesFrom space seed budget

/-- Modelled from the spec: the random candidate generator, carrying — like the
notebook's `kt.RandomSearch(build_model, objective=..., max_trials=60,
overwrite=True, directory="my_mnist", project_name="my_rnd_search", seed=42)` —
bookkeeping state (directory, project name) besides the space, seed and trial
budget. -/
structure RandomCandidateGenerator where
  space : SearchSpace
  seed : Nat
  trialBudget : Nat
  directory : String
  projectName : String

/-- Modelled from the spec: the full configuration sequence a generator
instance produces. -/
noncomputable def RandomCandidateGenerator.stream (g : RandomCandidateGenerator) :
    List Configuration :=
  randomCandidates g.space g.seed g.trialBudget

/-- C1: two RandomCandidateGenerator instances that agree on space, seed and
trial budget produce identical configuration sequences, whatever their other
state (directory, project name): the sequence is a deterministic function of
(space, seed, budget) alone. -/
theorem c1_random_generator_deterministic (g₁ g₂ : RandomCandidateGenerator)
    (hspace : g₁.space = g₂.space) (hseed : g₁.seed = g₂.seed)
    (hbudget : g₁.trialBudget = g₂.trialBudget) :
    g₁.stream = g₂.stream := by
  unfold RandomCandidateGenerator.stream randomCandidates
  rw [hspace, hseed, hbudget]

/-- Witness for C1: two concrete generator instances over the notebook's
integer-range spec, agreeing on space, seed and budget but differing in
directory and project name, produce the same sequence. -/
theorem c1_random_generator_deterministic_witness :
    (RandomCandidateGenerator.mk [⟨"depth", .intRange 1 3⟩] 42 60
        "my_mnist" "my_rnd_search").stream
      = (RandomCandidateGenerator.mk [⟨"depth", .intRange 1 3⟩] 42 60
        "another_dir" "another_project").stream :=
  c1_random_generator_deterministic _ _ rfl rfl rfl

/-- Modelled from the spec: the finite value list of a spec's domain, in
declaration/ascending order; `none` (UnsupportedOperationError) for a
continuous float range, which grid enumeration disallows. -/
def SpecDomain.enumValues : SpecDomain → Option (List Value)
  | .categorical cs => some (cs.map Value.cat)
  | .intRange lo hi =>
      some ((List.range ((hi - lo).toNat + 1)).map
        (fun k : Nat => Value.int (lo + (k : Int))))
  | .floatRange _ _ _ => none

/-- Modelled from the spec: the number of values of a finite domain. -/
def SpecDomain.size : SpecDomain → Nat
  | .categorical cs => cs.length
  | .intRange lo hi => (hi - lo).toNat + 1
  | .floatRange _ _ _ => 0

/-- Modelled from the spec: `enumerate()` yields the Cartesian product of all
per-spec domains, one configuration per combination, specs in declaration
order (outermost varies slowest) and values in declaration/ascending order;
it is defined only when every spec's domain is finite. -/
def enumerate : SearchSpace → Option (List Configuration)
  | [] => some [[]]
  | spec :: rest =>
      match spec.domain.enumValues, enumerate rest with
      | some vs, some tails =>
          some (vs.flatMap fun v => tails.map fun t => (spec.name, v) :: t)
      | _, _ => none

/-- Modelled from the spec: GridCandidateGenerator wraps `enumerate()`. -/
structure GridCandidateGenerator where
  configs : List Configuration

/-- Modelled from the spec: grid generator construction fails on a
non-enumerable space. -/
def GridCandidateGenerator.ofSpace (space : SearchSpace) :
    Option GridCandidateGenerator :=
  (enumerate space).map GridCandidateGenerator.mk

/-- Modelled from the spec: the grid generator's trial budget is the size of
its enumeration. -/
def GridCandidateGenerator.trialBudget (g : GridCandidateGenerator) : Nat :=
  g.configs.length

theorem enumValues_length {d : SpecDomain} {vs : List Value}
    (h : d.enumValues = some vs) : vs.length = d.size := by
  cases d with
  | categorical cs =>
      simp only [SpecDomain.enumValues, Option.some.injEq] at h
      subst h
      simp [SpecDomain.size]
  | intRange lo hi =>
      simp only [SpecDomain.enumValues, Option.some.injEq] at h
      subst h
      simp [SpecDomain.size]
  | floatRange lo hi ls => simp [SpecDomain.enumValues] at h

theorem enumValues_nodup {d : SpecDomain} {vs : List Value}
    (hwf : d.wf) (h : d.enumValues = some vs) : vs.Nodup := by
  cases d with
  | categorical cs =>
      simp only [SpecDomain.enumValues, Option.some.injEq] at h
      subst h
      exact hwf.2.map (fun a b hab => Value.cat.inj hab)
  | intRange lo hi =>
      simp only [SpecDomain.enumValues, Option.some.injEq] at h
      subst h
      refine (List.nodup_range _).map ?_
      intro a b hab
      have := Value.int.inj hab
      omega
  | floatRange lo hi ls => simp [SpecDomain.enumValues] at h

theorem enumValues_mem {d : SpecDomain} {vs : List Value}
    (hwf : d.wf) (h : d.enumValues = some vs) (v : Value) :
    v ∈ vs ↔ inDomain v d := by
  cases d with
  | categorical cs =>
      simp only [SpecDomain.enumValues, Option.some.injEq] at h
      subst h
      cases v <;> simp [inDomain]
  | intRange lo hi =>
      simp only [SpecDomain.enumValues, Option.some.injEq] at h
      subst h
      have hlt : lo < hi := hwf
      cases v with
      | cat s => simp [inDomain]
      | float r => simp [inDomain]
      | int i =>
          simp only [List.mem_map, List.mem_range, inDomain]
          constructor
          · rintro ⟨k, hk, hki⟩
            have := Value.int.inj hki
            omega
          · intro hi'
            refine ⟨(i - lo).toNat, by omega, ?_⟩
            have : lo + ((i - lo).toNat : Int) = i := by omega
            rw [this]
  | floatRange lo hi ls => simp [SpecDomain.enumValues] at h

theorem enumerate_props (space : SearchSpace)
    (hwf : ∀ s ∈ space, s.domain.wf)
    (hfin : ∀ s ∈ space, s.domain.enumValues.isSome = true) :
    ∃ l, enumerate space = some l ∧
      l.length = (space.map (fun s => s.domain.size)).prod ∧
      l.Nodup ∧
      (∀ c, c ∈ l ↔ conformsTo space c) := by
  induction space with
  | nil =>
      refine ⟨[[]], rfl, by simp, by simp, fun c => ?_⟩
      simp [conformsTo, List.forall₂_nil_left_iff, eq_comm]
  | cons spec rest ih =>
      obtain ⟨vs, hvs⟩ := Option.isSome_iff_exists.mp
        (hfin spec (List.mem_cons_self _ _))
      obtain ⟨l, hl, hlen, hnodup, hmem⟩ :=
        ih (fun s hs => hwf s (List.mem_cons_of_mem _ hs))
          (fun s hs => hfin s (List.mem_cons_of_mem _ hs))
      have hdwf : spec.domain.wf := hwf spec (List.mem_cons_self _ _)
      refine ⟨vs.flatMap fun v => l.map fun t => (spec.name, v) :: t,
        by simp [enumerate, hvs, hl], ?_, ?_, ?_⟩
      · simp only [List.length_flatMap, Function.comp_def, List.length_map,
          List.map_const', List.sum_replicate, smul_eq_mul, List.map_cons,
          List.prod_cons]
        rw [enumValues_length hvs, hlen]
      · rw [List.nodup_flatMap]
        constructor
        · intro v _
          exact hnodup.map (fun a b hab => by
            simpa using congrArg List.tail hab)
        · refine (enumValues_nodup hdwf hvs).imp ?_
          intro a b hab
          intro c hca hcb
          simp only [List.mem_map] at hca hcb
          obtain ⟨t₁, _, ht₁⟩ := hca
          obtain ⟨t₂, _, ht₂⟩ := hcb
          rw [← ht₁] at ht₂
          exact hab (congrArg Prod.snd (List.head_eq_of_cons_eq ht₂)).symm
      · intro c
        simp only [List.mem_flatMap, List.mem_map]
        constructor
        · rintro ⟨v, hv, t, ht, rfl⟩
          exact List.Forall₂.cons
            ⟨rfl, (enumValues_mem hdwf hvs v).mp hv⟩ ((hmem t).mp ht)
        · intro hc
          rw [conformsTo, List.forall₂_cons_left_iff] at hc
          obtain ⟨p, t, ⟨hp1, hp2⟩, hrest, rfl⟩ := hc
          refine ⟨p.2, (enumValues_mem hdwf hvs p.2).mpr hp2, t,
            (hmem t).mpr hrest, ?_⟩
          rw [← hp1]

/-- C2: on a well-formed space in which every spec's domain is finite (in
particular a space of categorical specs of sizes a, b, c), `enumerate()`
succeeds and yields exactly the product of the domain sizes (a·b·c)
configurations, each unique, covering the full Cartesian product of the
per-spec domains — a configuration appears exactly when it is complete and
in-domain — and the grid generator's trial budget equals this enumeration
size.  The order is deterministic because `enumerate` is a pure function of
the space, specs in declaration order, values in declaration/ascending
order. -/
theorem c2_grid_enumeration_product (space : SearchSpace)
    (hwf : SearchSpace.wf space)
    (hfin : ∀ s ∈ space, s.domain.enumValues.isSome = true) :
    ∃ l, enumerate space = some l ∧
      l.length = (space.map (fun s => s.domain.size)).prod ∧
      l.Nodup ∧
      (∀ c, c ∈ l ↔ conformsTo space c) ∧
      (∀ g, GridCandidateGenerator.ofSpace space = some g →
        g.trialBudget = l.length) := by
  obtain ⟨l, hl, hlen, hnodup, hmem⟩ := enumerate_props space hwf.2 hfin
  refine ⟨l, hl, hlen, hnodup, hmem, ?_⟩
  intro g hg
  simp only [GridCandidateGenerator.ofSpace, hl, Option.map_some'] at hg
  cases hg
  rfl

/-- Witness for C2: a concrete space of three categorical specs of sizes
2, 3 and 2 is well-formed and fully finite, so the theorem applies with
enumeration size 12. -/
theorem c2_grid_enumeration_product_witness :
    ∃ l, enumerate
        [⟨"kernel", .categorical ["linear", "rbf"]⟩,
         ⟨"depth", .categorical ["shallow", "mid", "deep"]⟩,
         ⟨"scale", .categorical ["on", "off"]⟩] = some l ∧
      l.length = ([⟨"kernel", .categorical ["linear", "rbf"]⟩,
         ⟨"depth", .categorical ["shallow", "mid", "deep"]⟩,
         ⟨"scale", .categorical ["on", "off"]⟩].map
           (fun s : HyperparameterSpec => s.domain.size)).prod ∧
      l.Nodup ∧
      (∀ c, c ∈ l ↔ conformsTo
        [⟨"kernel", .categorical ["linear", "rbf"]⟩,
         ⟨"depth", .categorical ["shallow", "mid", "deep"]⟩,
         ⟨"scale", .categorical ["on", "off"]⟩] c) ∧
      (∀ g, GridCandidateGenerator.ofSpace
          [⟨"kernel", .categorical ["linear", "rbf"]⟩,
           ⟨"depth", .categorical ["shallow", "mid", "deep"]⟩,
           ⟨"scale", .categorical ["on", "off"]⟩] = some g →
        g.trialBudget = l.length) :=
  c2_grid_enumeration_product _ (by decide) (by decide)

theorem unitDraw_nonneg (r : Nat) : 0 ≤ unitDraw r := by
  unfold unitDraw
  positivity

theorem unitDraw_lt_one (r : Nat) : unitDraw r < 1 := by
  unfold unitDraw
  rw [div_lt_one (by norm_num)]
  exact_mod_cast Nat.mod_lt _ (by norm_num)

/-- Interpolating with a coefficient in `[0, 1)` stays inside the interval. -/
theorem interp_mem {lo hi t : ℝ} (hlh : lo ≤ hi) (h0 : 0 ≤ t) (h1 : t < 1) :
    lo ≤ lo + t * (hi - lo) ∧ lo + t * (hi - lo) ≤ hi := by
  constructor
  · nlinarith
  · nlinarith

theorem sampleVal_inDomain (d : SpecDomain) (hwf : d.wf) (r : Nat) :
    inDomain (d.sampleVal r) d := by
  cases d with
  | categorical cs =>
      have hne : cs ≠ [] := hwf.1
      have hpos : 0 < cs.length := List.length_pos.mpr hne
      have hlt : r % cs.length < cs.length := Nat.mod_lt _ hpos
      show cs.getD (r % cs.length) "" ∈ cs
      rw [List.getD_eq_getElem?_getD, List.getElem?_eq_getElem hlt]
      exact List.getElem_mem hlt
  | intRange lo hi =>
      have hlt : lo < hi := hwf
      have hmod : r % ((hi - lo).toNat + 1) < (hi - lo).toNat + 1 :=
        Nat.mod_lt _ (Nat.succ_pos _)
      show lo ≤ lo + ((r % ((hi - lo).toNat + 1) : ℕ) : Int) ∧
        lo + ((r % ((hi - lo).toNat + 1) : ℕ) : Int) ≤ hi
      omega
  | floatRange lo hi ls =>
      have hlh : (lo : ℝ) ≤ (hi : ℝ) := by exact_mod_cast le_of_lt hwf.1
      have h0 : (0 : ℝ) ≤ (unitDraw r : ℝ) := by exact_mod_cast unitDraw_nonneg r
      have h1 : (unitDraw r : ℝ) < 1 := by exact_mod_cast unitDraw_lt_one r
      cases ls with
      | false => exact interp_mem hlh h0 h1
      | true =>
          have hlo : (0 : ℝ) < (lo : ℝ) := by exact_mod_cast hwf.2 rfl
          have hhi : (0 : ℝ) < (hi : ℝ) := lt_of_lt_of_le hlo hlh
          have hlog : Real.log (lo : ℝ) ≤ Real.log (hi : ℝ) :=
            Real.log_le_log hlo hlh
          obtain ⟨hlow, hhigh⟩ := interp_mem hlog h0 h1
          constructor
          · calc (lo : ℝ) = Real.exp (Real.log (lo : ℝ)) :=
                  (Real.exp_log hlo).symm
              _ ≤ _ := Real.exp_le_exp.mpr hlow
          · calc Real.exp (Real.log (lo : ℝ) + (unitDraw r : ℝ) *
                  (Real.log (hi : ℝ) - Real.log (lo : ℝ)))
                ≤ Real.exp (Real.log (hi : ℝ)) := Real.exp_le_exp.mpr hhigh
              _ = (hi : ℝ) := Real.exp_log hhi

theorem sampleConfig_conformsTo (space : SearchSpace)
    (hwf : ∀ s ∈ space, s.domain.wf) (s : Nat) :
    conformsTo space (sampleConfig space s).1 := by
  induction space generalizing s with
  | nil => exact List.Forall₂.nil
  | cons spec rest ih =>
      exact List.Forall₂.cons
        ⟨rfl, sampleVal_inDomain spec.domain (hwf spec (List.mem_cons_self _ _))
          (lcgNext s)⟩
        (ih (fun sp hsp => hwf sp (List.mem_cons_of_mem _ hsp)) (lcgNext s))

theorem randomCandidatesFrom_length (space : SearchSpace) (s n : Nat) :
    (randomCandidatesFrom space s n).length = n := by
  induction n generalizing s with
  | zero => rfl
  | succ n ih => simp [randomCandidatesFrom, ih]

theorem randomCandidatesFrom_conformsTo (space : SearchSpace)
    (hwf : ∀ sp ∈ space, sp.domain.wf) (s n : Nat) :
    ∀ c ∈ randomCandidatesFrom space s n, conformsTo space c := by
  induction n generalizing s with
  | zero => intro c hc; simp [randomCandidatesFrom] at hc
  | succ n ih =>
      intro c hc
      rw [randomCandidatesFrom] at hc
      rcases List.mem_cons.mp hc with h | h
      · rw [h]
        exact sampleConfig_conformsTo space hwf s
      · exact ih _ c h

/-- C7: for a well-formed space, RandomCandidateGenerator(space, seed, n)
produces exactly n configurations (repeats allowed — no de-duplication is
performed), and every produced configuration is complete (one entry per
declared spec, names in order) and in-domain: categorical values are members
of their domain, integer-range values lie in `[min, max]` inclusive,
float-range values lie in `[min, max]`, log-scale sampling included. -/
theorem c7_random_candidates_complete_in_domain (space : SearchSpace)
    (seed n : Nat) (hwf : SearchSpace.wf space) :
    (randomCandidates space seed n).length = n ∧
      ∀ c ∈ randomCandidates space seed n, conformsTo space c :=
  ⟨randomCandidatesFrom_length space seed n,
   randomCandidatesFrom_conformsTo space hwf.2 seed n⟩

/-- Witness for C7: the spec's end-to-end example space
`{depth ∈ integer-range [1, 3], rate ∈ float-range [0.01, 1.0] log-scale}`
is well-formed, so RandomCandidateGenerator(seed = 1, budget = 5) returns
exactly 5 complete, in-domain configurations. -/
theorem c7_random_candidates_complete_in_domain_witness :
    (randomCandidates
        [⟨"depth", .intRange 1 3⟩, ⟨"rate", .floatRange (mkRat 1 100) 1 true⟩]
        1 5).length = 5 ∧
      ∀ c ∈ randomCandidates
        [⟨"depth", .intRange 1 3⟩, ⟨"rate", .floatRange (mkRat 1 100) 1 true⟩]
        1 5, conformsTo
        [⟨"depth", .intRange 1 3⟩, ⟨"rate", .floatRange (mkRat 1 100) 1 true⟩] c :=
  c7_random_candidates_complete_in_domain _ 1 5 (by decide)

/-- Modelled from the spec: objective values with the two worst-possible
sentinels — `⊥` plays −∞ (the maximize sentinel) and `⊤` plays +∞ (the
minimize sentinel); ordinary objective values are rationals. -/
abbrev Objective := WithBot (WithTop ℚ)

/-- Modelled from the spec: the direction under which objectives compare. -/
inductive Direction where
  | maximize
  | minimize

/-- Modelled from the spec: the worst-possible sentinel objective — −∞ for
maximize, +∞ for minimize. -/
def sentinel : Direction → Objective
  | .maximize => ⊥
  | .minimize => ((⊤ : WithTop ℚ) : Objective)

/-- Modelled from the spec: strict improvement of a candidate objective over
the incumbent under a direction. -/
def improves (dir : Direction) (cand cur : Objective) : Prop :=
  match dir with
  | .maximize => cur < cand
  | .minimize => cand < cur

instance (dir : Direction) (a b : Objective) : Decidable (improves dir a b) := by
  cases dir with
  | maximize => exact inferInstanceAs (Decidable (b < a))
  | minimize => exact inferInstanceAs (Decidable (a < b))

/-- The direction's non-strict comparison: `dirLE dir a b` says `b` is at
least as good as `a` under `dir`. -/
def dirLE (dir : Direction) (a b : Objective) : Prop :=
  match dir with
  | .maximize => a ≤ b
  | .minimize => b ≤ a

theorem not_improves_iff (dir : Direction) (a b : Objective) :
    ¬ improves dir a b ↔ dirLE dir a b := by
  cases dir <;> simp [improves, dirLE, not_lt]

theorem improves_trans {dir : Direction} {a b c : Objective}
    (h₁ : improves dir a b) (h₂ : improves dir b c) : improves dir a c := by
  cases dir with
  | maximize => exact lt_trans h₂ h₁
  | minimize => exact lt_trans h₁ h₂

theorem improves_of_dirLE {dir : Direction} {a b c : Objective}
    (h₁ : improves dir a b) (h₂ : dirLE dir c b) : improves dir a c := by
  cases dir with
  | maximize => exact lt_of_le_of_lt h₂ h₁
  | minimize => exact lt_of_lt_of_le h₁ h₂

/-- Modelled from the spec: a TrialRecord — trial index, the configuration,
and the scalar objective of its evaluation result.  Immutable once created. -/
structure TrialRecord where
  index : Nat
  config : Configuration
  objective : Objective

/-- Modelled from the spec: the error raised when `best()` is queried on an
empty tracker. -/
inductive SearchError where
  | noTrialsError

/-- Modelled from the spec: the TrialTracker — append-only history plus the
best-so-far record under the configured direction. -/
structure TrialTracker where
  direction : Direction
  history : List TrialRecord
  bestSoFar : Option TrialRecord

/-- Modelled from the spec: a fresh tracker with no recorded trials. -/
def TrialTracker.empty (dir : Direction) : TrialTracker := ⟨dir, [], none⟩

/-- Modelled from the spec: `record(trial)` appends to the history and
updates the best only on strict improvement under the direction, so a tie
keeps the earlier trial (first-found wins). -/
def TrialTracker.record (t : TrialTracker) (r : TrialRecord) : TrialTracker :=
  { direction := t.direction
    history := t.history ++ [r]
    bestSoFar :=
      match t.bestSoFar with
      | none => some r
      | some b =>
          if improves t.direction r.objective b.objective then some r
          else some b }

/-- Modelled from the spec: `best()` fails with NoTrialsError before any
trial has been recorded. -/
def TrialTracker.best (t : TrialTracker) : Except SearchError TrialRecord :=
  t.bestSoFar.elim (.error .noTrialsError) .ok

/-- Recording a whole sequence of trials in order. -/
def recordAll (t : TrialTracker) (rs : List TrialRecord) : TrialTracker :=
  rs.foldl TrialTracker.record t

/-- The pure best-so-far step: keep the incumbent unless strictly improved. -/
def pick (dir : Direction) (b r : TrialRecord) : TrialRecord :=
  if improves dir r.objective b.objective then r else b

theorem record_direction (t : TrialTracker) (r : TrialRecord) :
    (t.record r).direction = t.direction := rfl

theorem recordAll_bestSoFar (dir : Direction) :
    ∀ (rs : List TrialRecord) (t : TrialTracker) (b : TrialRecord),
      t.direction = dir → t.bestSoFar = some b →
      (recordAll t rs).bestSoFar = some (rs.foldl (pick dir) b) := by
  intro rs
  induction rs with
  | nil => intro t b _ hb; exact hb
  | cons r rest ih =>
      intro t b hdir hb
      show (recordAll (t.record r) rest).bestSoFar = _
      have hstep : (t.record r).bestSoFar = some (pick dir b r) := by
        simp only [TrialTracker.record, hb, hdir, pick]
        split <;> rfl
      exact ih (t.record r) (pick dir b r) (by rw [record_direction, hdir]) hstep

theorem dirLE_refl (dir : Direction) (a : Objective) : dirLE dir a a := by
  cases dir <;> exact le_refl _

theorem dirLE_trans {dir : Direction} {a b c : Objective}
    (h₁ : dirLE dir a b) (h₂ : dirLE dir b c) : dirLE dir a c := by
  cases dir with
  | maximize => exact le_trans h₁ h₂
  | minimize => exact le_trans h₂ h₁

theorem improves_dirLE {dir : Direction} {a b : Objective}
    (h : improves dir a b) : dirLE dir b a := by
  cases dir <;> exact le_of_lt h

theorem le_pick_left (dir : Direction) (b r : TrialRecord) :
    dirLE dir b.objective (pick dir b r).objective := by
  rw [pick]
  split
  · rename_i h
    exact improves_dirLE h
  · exact dirLE_refl dir _

theorem le_pick_right (dir : Direction) (b r : TrialRecord) :
    dirLE dir r.objective (pick dir b r).objective := by
  rw [pick]
  split
  · exact dirLE_refl dir _
  · rename_i h
    exact (not_improves_iff dir _ _).mp h

theorem foldl_pick_le (dir : Direction) :
    ∀ (rs : List TrialRecord) (b : TrialRecord),
      dirLE dir b.objective (rs.foldl (pick dir) b).objective ∧
      ∀ r ∈ rs, dirLE dir r.objective (rs.foldl (pick dir) b).objective := by
  intro rs
  induction rs with
  | nil => intro b; exact ⟨dirLE_refl dir _, by simp⟩
  | cons r rest ih =>
      intro b
      obtain ⟨hacc, hall⟩ := ih (pick dir b r)
      refine ⟨dirLE_trans (le_pick_left dir b r) hacc, ?_⟩
      intro r' hr'
      rcases List.mem_cons.mp hr' with h | h
      · rw [h]
        exact dirLE_trans (le_pick_right dir b r) hacc
      · exact hall r' h

theorem foldl_pick_first (dir : Direction) :
    ∀ (rs : List TrialRecord) (b : TrialRecord),
      rs.foldl (pick dir) b = b ∨
      ∃ i : Nat, rs[i]? = some (rs.foldl (pick dir) b) ∧
        improves dir (rs.foldl (pick dir) b).objective b.objective ∧
        ∀ j < i, ∀ r : TrialRecord, rs[j]? = some r →
          improves dir (rs.foldl (pick dir) b).objective r.objective := by
  intro rs
  induction rs with
  | nil => intro b; exact Or.inl rfl
  | cons r rest ih =>
      intro b
      simp only [List.foldl_cons]
      by_cases himp : improves dir r.objective b.objective
      · have hpick : pick dir b r = r := by rw [pick, if_pos himp]
        rw [hpick]
        rcases ih r with heq | ⟨i, hi, himpr, hbefore⟩
        · refine Or.inr ⟨0, ?_, ?_, ?_⟩
          · simp [heq]
          · rw [heq]; exact himp
          · intro j hj; omega
        · refine Or.inr ⟨i + 1, by simpa using hi,
            improves_trans himpr himp, ?_⟩
          intro j hj r' hr'
          cases j with
          | zero =>
              have hr0 : r = r' := by simpa using hr'
              rw [← hr0]
              exact himpr
          | succ j' =>
              exact hbefore j' (by omega) r' (by simpa using hr')
      · have hpick : pick dir b r = b := by rw [pick, if_neg himp]
        rw [hpick]
        rcases ih b with heq | ⟨i, hi, himpr, hbefore⟩
        · exact Or.inl heq
        · refine Or.inr ⟨i + 1, by simpa using hi, himpr, ?_⟩
          intro j hj r' hr'
          cases j with
          | zero =>
              have hr0 : r = r' := by simpa using hr'
              rw [← hr0]
              exact improves_of_dirLE himpr
                ((not_improves_iff dir _ _).mp himp)
          | succ j' =>
              exact hbefore j' (by omega) r' (by simpa using hr')

/-- C4: after recording any non-empty sequence of trials, `best()` returns a
recorded trial that is optimal under the direction (no recorded trial
strictly improves on it — maximal objective under maximize, minimal under
minimize), and it is the earliest such trial: every trial recorded before it
is strictly worse, so ties keep the earlier trial (first-found wins). -/
theorem c4_tracker_best_first_optimal (dir : Direction)
    (rs : List TrialRecord) (hne : rs ≠ []) :
    ∃ b, (recordAll (TrialTracker.empty dir) rs).best = Except.ok b ∧
      (∀ r ∈ rs, dirLE dir r.objective b.objective) ∧
      ∃ i : Nat, rs[i]? = some b ∧
        ∀ j < i, ∀ r : TrialRecord, rs[j]? = some r →
          improves dir b.objective r.objective := by
  obtain ⟨r₀, rest, rfl⟩ := List.exists_cons_of_ne_nil hne
  have hrec : (recordAll (TrialTracker.empty dir) (r₀ :: rest)).bestSoFar
      = some (rest.foldl (pick dir) r₀) := by
    show (recordAll ((TrialTracker.empty dir).record r₀) rest).bestSoFar = _
    exact recordAll_bestSoFar dir rest _ r₀ rfl rfl
  refine ⟨rest.foldl (pick dir) r₀, ?_, ?_, ?_⟩
  · rw [TrialTracker.best, hrec]
    rfl
  · intro r hr
    obtain ⟨hacc, hall⟩ := foldl_pick_le dir rest r₀
    rcases List.mem_cons.mp hr with h | h
    · rw [h]; exact hacc
    · exact hall r h
  · rcases foldl_pick_first dir rest r₀ with heq | ⟨i, hi, himpr, hbefore⟩
    · refine ⟨0, ?_, ?_⟩
      · simp [heq]
      · intro j hj; omega
    · refine ⟨i + 1, by simpa using hi, ?_⟩
      intro j hj r hr
      cases j with
      | zero =>
          have hr0 : r₀ = r := by simpa using hr
          rw [← hr0]
          exact himpr
      | succ j' => exact hbefore j' (by omega) r (by simpa using hr)

/-- The claim's example history: objectives 0.70, 0.85, 0.80. -/
def exampleTrials : List TrialRecord :=
  [⟨0, [], ((mkRat 7 10 : ℚ) : Objective)⟩,
   ⟨1, [], ((mkRat 85 100 : ℚ) : Objective)⟩,
   ⟨2, [], ((mkRat 8 10 : ℚ) : Objective)⟩]

/-- Witness for C4: the theorem applied to the example history with
objectives [0.70, 0.85, 0.80] under maximize. -/
theorem c4_tracker_best_first_optimal_witness :
    exampleTrials ≠ [] ∧
    ∃ b, (recordAll (TrialTracker.empty .maximize) exampleTrials).best
        = Except.ok b ∧
      (∀ r ∈ exampleTrials, dirLE .maximize r.objective b.objective) ∧
      ∃ i : Nat, exampleTrials[i]? = some b ∧
        ∀ j < i, ∀ r : TrialRecord, exampleTrials[j]? = some r →
          improves .maximize b.objective r.objective :=
  ⟨by simp [exampleTrials],
   c4_tracker_best_first_optimal .maximize exampleTrials
     (by simp [exampleTrials])⟩

/-- Modelled from the spec: the outcome of evaluating one candidate — a
successful score, a per-trial numeric/convergence failure
(TrialEvaluationFailure, absorbed into a sentinel-scored trial), or a
structural configuration error (ConfigurationError, which propagates). -/
inductive EvalOutcome where
  | ok (score : ℚ)
  | numericFailure
  | configurationError

/-- Modelled from the spec: the orchestrator's final state — Completed with
the tracker, or Aborted on a propagating failure with the partial history
still retrievable from the tracker. -/
inductive RunResult where
  | completed (tracker : TrialTracker)
  | aborted (tracker : TrialTracker)

/-- Modelled from the spec: the orchestrator loop — pull the next
configuration, evaluate it, record a TrialRecord with the sequential trial
index (absorbing a numeric failure as a sentinel-scored trial), abort on a
configuration error, and complete when the generator is exhausted. -/
def runLoop (evalFn : Configuration → EvalOutcome) (t : TrialTracker) :
    List Configuration → RunResult
  | [] => .completed t
  | c :: cs =>
      match evalFn c with
      | .ok score =>
          runLoop evalFn
            (t.record ⟨t.history.length, c, ((score : WithTop ℚ) : Objective)⟩) cs
      | .numericFailure =>
          runLoop evalFn
            (t.record ⟨t.history.length, c, sentinel t.direction⟩) cs
      | .configurationError => .aborted t

/-- Modelled from the spec: `run` drives the whole search from a fresh
tracker over the generated configuration sequence. -/
def SearchOrchestrator.run (dir : Direction)
    (evalFn : Configuration → EvalOutcome) (configs : List Configuration) :
    RunResult :=
  runLoop evalFn (TrialTracker.empty dir) configs

theorem runLoop_no_configError (evalFn : Configuration → EvalOutcome) :
    ∀ (cs : List Configuration) (t : TrialTracker),
      (∀ c ∈ cs, evalFn c ≠ .configurationError) →
      ∃ t', runLoop evalFn t cs = .completed t' ∧
        t'.direction = t.direction ∧
        t'.history.length = t.history.length + cs.length ∧
        (∀ k : Nat, k < t.history.length → t'.history[k]? = t.history[k]?) ∧
        ∀ i : Nat, ∀ c, cs[i]? = some c → evalFn c = .numericFailure →
          t'.history[t.history.length + i]?
            = some ⟨t.history.length + i, c, sentinel t.direction⟩ := by
  intro cs
  induction cs with
  | nil =>
      intro t _
      exact ⟨t, rfl, rfl, by simp, fun k _ => rfl, by simp⟩
  | cons c cs' ih =>
      intro t h
      have hc : evalFn c ≠ .configurationError := h c (List.mem_cons_self _ _)
      have hrest : ∀ c' ∈ cs', evalFn c' ≠ .configurationError :=
        fun c' hc' => h c' (List.mem_cons_of_mem _ hc')
      cases hev : evalFn c with
      | configurationError => exact absurd hev hc
      | ok score =>
          obtain ⟨t', hrun, hdir, hlen, hpre, hnum⟩ :=
            ih (t.record ⟨t.history.length, c,
              ((score : WithTop ℚ) : Objective)⟩) hrest
          have hrl : (t.record ⟨t.history.length, c,
              ((score : WithTop ℚ) : Objective)⟩).history
              = t.history ++ [⟨t.history.length, c,
                ((score : WithTop ℚ) : Objective)⟩] := rfl
          refine ⟨t', ?_, hdir, ?_, ?_, ?_⟩
          · show runLoop evalFn t (c :: cs') = _
            rw [runLoop, hev]
            exact hrun
          · rw [hlen, hrl]
            simp
            omega
          · intro k hk
            rw [hpre k (by rw [hrl]; simp; omega), hrl,
              List.getElem?_append, if_pos hk]
          · intro i c' hc' hnf
            cases i with
            | zero =>
                have hcc : c = c' := by simpa using hc'
                rw [← hcc] at hnf
                exact absurd hnf (by rw [hev]; exact fun heq => nomatch heq)
            | succ i' =>
                have hstep := hnum i' c' (by simpa using hc') hnf
                rw [hrl] at hstep
                simp only [List.length_append, List.length_cons,
                  List.length_nil] at hstep
                have harith : t.history.length + (i' + 1)
                    = t.history.length + 1 + i' := by omega
                rw [harith]
                convert hstep using 3
      | numericFailure =>
          obtain ⟨t', hrun, hdir, hlen, hpre, hnum⟩ :=
            ih (t.record ⟨t.history.length, c, sentinel t.direction⟩) hrest
          have hrl : (t.record ⟨t.history.length, c,
              sentinel t.direction⟩).history
              = t.history ++ [⟨t.history.length, c,
                sentinel t.direction⟩] := rfl
          refine ⟨t', ?_, hdir, ?_, ?_, ?_⟩
          · show runLoop evalFn t (c :: cs') = _
            rw [runLoop, hev]
            exact hrun
          · rw [hlen, hrl]
            simp
            omega
          · intro k hk
            rw [hpre k (by rw [hrl]; simp; omega), hrl,
              List.getElem?_append, if_pos hk]
          · intro i c' hc' hnf
            cases i with
            | zero =>
                have hcc : c = c' := by simpa using hc'
                subst hcc
                have hk : t.history.length
                    < (t.record ⟨t.history.length, c,
                        sentinel t.direction⟩).history.length := by
                  rw [hrl]; simp
                rw [Nat.add_zero, hpre t.history.length hk, hrl,
                  List.getElem?_concat_length]
            | succ i' =>
                have hstep := hnum i' c' (by simpa using hc') hnf
                rw [hrl] at hstep
                simp only [List.length_append, List.length_cons,
                  List.length_nil] at hstep
                have harith : t.history.length + (i' + 1)
                    = t.history.length + 1 + i' := by omega
                rw [harith]
                convert hstep using 3

theorem runLoop_configError_aborts (evalFn : Configuration → EvalOutcome) :
    ∀ (cs : List Configuration) (t : TrialTracker) (i : Nat)
      (c : Configuration),
      cs[i]? = some c → evalFn c = .configurationError →
      (∀ j < i, ∀ c' : Configuration, cs[j]? = some c' →
        evalFn c' ≠ .configurationError) →
      ∃ t', runLoop evalFn t cs = .aborted t' ∧
        t'.history.length = t.history.length + i := by
  intro cs
  induction cs with
  | nil => intro t i c hc; simp at hc
  | cons c₀ cs' ih =>
      intro t i c hc hcfg hfirst
      cases i with
      | zero =>
          have hcc : c₀ = c := by simpa using hc
          refine ⟨t, ?_, by simp⟩
          show runLoop evalFn t (c₀ :: cs') = _
          rw [runLoop, hcc, hcfg]
      | succ i' =>
          have h0 : evalFn c₀ ≠ .configurationError := by
            refine hfirst 0 (by omega) c₀ ?_
            simp
          have hfirst' : ∀ j < i', ∀ c' : Configuration, cs'[j]? = some c' →
              evalFn c' ≠ .configurationError := by
            intro j hj c' hc'
            exact hfirst (j + 1) (by omega) c' (by simpa using hc')
          cases hev : evalFn c₀ with
          | configurationError => exact absurd hev h0
          | ok score =>
              obtain ⟨t', hrun, hlen⟩ :=
                ih (t.record ⟨t.history.length, c₀,
                  ((score : WithTop ℚ) : Objective)⟩) i' c
                  (by simpa using hc) hcfg hfirst'
              refine ⟨t', ?_, ?_⟩
              · show runLoop evalFn t (c₀ :: cs') = _
                rw [runLoop, hev]
                exact hrun
              · rw [hlen]
                show _ = t.history.length + (i' + 1)
                have : (t.record ⟨t.history.length, c₀,
                    ((score : WithTop ℚ) : Objective)⟩).history.length
                    = t.history.length + 1 := by
                  show (t.history ++ [_]).length = _
                  simp
                omega
          | numericFailure =>
              obtain ⟨t', hrun, hlen⟩ :=
                ih (t.record ⟨t.history.length, c₀,
                  sentinel t.direction⟩) i' c
                  (by simpa using hc) hcfg hfirst'
              refine ⟨t', ?_, ?_⟩
              · show runLoop evalFn t (c₀ :: cs') = _
                rw [runLoop, hev]
                exact hrun
              · rw [hlen]
                show _ = t.history.length + (i' + 1)
                have : (t.record ⟨t.history.length, c₀,
                    sentinel t.direction⟩).history.length
                    = t.history.length + 1 := by
                  show (t.history ++ [_]).length = _
                  simp
                omega

/-- C5: the orchestrator's failure policy.  If no configuration triggers a
structural configuration error, the search runs to completion, every
configuration yields one trial, and every trial whose training failed
numerically is recorded with the worst-possible sentinel objective (−∞ for
maximize, +∞ for minimize).  If configuration `i` is the first to trigger a
configuration error, the error propagates: the run aborts, and the partial
history — exactly the `i` trials before the failure — is still retrievable
from the tracker. -/
theorem c5_failure_policy (dir : Direction)
    (evalFn : Configuration → EvalOutcome) (configs : List Configuration) :
    ((∀ c ∈ configs, evalFn c ≠ .configurationError) →
      ∃ t, SearchOrchestrator.run dir evalFn configs = .completed t ∧
        t.history.length = configs.length ∧
        ∀ i : Nat, ∀ c, configs[i]? = some c → evalFn c = .numericFailure →
          t.history[i]? = some ⟨i, c, sentinel dir⟩) ∧
    (∀ i : Nat, ∀ c, configs[i]? = some c →
      evalFn c = .configurationError →
      (∀ j < i, ∀ c' : Configuration, configs[j]? = some c' →
        evalFn c' ≠ .configurationError) →
      ∃ t, SearchOrchestrator.run dir evalFn configs = .aborted t ∧
        t.history.length = i) := by
  constructor
  · intro h
    obtain ⟨t', hrun, _, hlen, _, hnum⟩ :=
      runLoop_no_configError evalFn configs (TrialTracker.empty dir) h
    refine ⟨t', hrun, by simpa [TrialTracker.empty] using hlen, ?_⟩
    intro i c hc hnf
    simpa [TrialTracker.empty] using hnum i c hc hnf
  · intro i c hc hcfg hfirst
    obtain ⟨t', hrun, hlen⟩ :=
      runLoop_configError_aborts evalFn configs (TrialTracker.empty dir)
        i c hc hcfg hfirst
    exact ⟨t', hrun, by simpa [TrialTracker.empty] using hlen⟩

/-- An evaluator for the witness: the empty configuration fails numerically,
everything else scores 1. -/
def evalNumFail : Configuration → EvalOutcome
  | [] => .numericFailure
  | _ => .ok 1

/-- An evaluator for the witness: the empty configuration triggers a
structural configuration error, everything else scores 1. -/
def evalCfgFail : Configuration → EvalOutcome
  | [] => .configurationError
  | _ => .ok 1

/-- The witness's candidate sequence: one ordinary configuration, then the
failing (empty) one. -/
def witnessConfigs : List Configuration := [[("a", Value.int 1)], []]

/-- Witness for C5: under the numeric-failure evaluator the concrete search
completes with a full history whose failing trial carries the sentinel;
under the configuration-error evaluator it aborts at index 1 with exactly
one recorded trial. -/
theorem c5_failure_policy_witness :
    (∃ t, SearchOrchestrator.run .maximize evalNumFail witnessConfigs
        = .completed t ∧
      t.history.length = witnessConfigs.length ∧
      ∀ i : Nat, ∀ c, witnessConfigs[i]? = some c →
        evalNumFail c = .numericFailure →
        t.history[i]? = some ⟨i, c, sentinel .maximize⟩) ∧
    (∃ t, SearchOrchestrator.run .maximize evalCfgFail witnessConfigs
        = .aborted t ∧ t.history.length = 1) := by
  constructor
  · refine (c5_failure_policy .maximize evalNumFail witnessConfigs).1 ?_
    intro c hc
    rcases List.mem_cons.mp hc with rfl | hc
    · exact fun h => nomatch h
    · rcases List.mem_cons.mp hc with rfl | hc
      · exact fun h => nomatch h
      · exact absurd hc (List.not_mem_nil c)
  · refine (c5_failure_policy .maximize evalCfgFail witnessConfigs).2 1 [] rfl
      rfl ?_
    intro j hj c' hc' hcontra
    cases j with
    | zero =>
        have hcc : [("a", Value.int 1)] = c' := by
          simpa [witnessConfigs] using hc'
        rw [← hcc] at hcontra
        exact nomatch hcontra
    | succ n => omega

/-- C6: a trial budget of zero is legal — the random generator yields no
configurations, the orchestrator immediately completes with the empty
tracker (empty history), and `best()` on that tracker — i.e. before any
trial has been recorded — fails with NoTrialsError. -/
theorem c6_zero_budget_completes_empty (space : SearchSpace) (seed : Nat)
    (dir : Direction) (evalFn : Configuration → EvalOutcome) :
    SearchOrchestrator.run dir evalFn (randomCandidates space seed 0)
      = .completed (TrialTracker.empty dir) ∧
    (TrialTracker.empty dir).history = [] ∧
    (TrialTracker.empty dir).best = Except.error .noTrialsError :=
  ⟨rfl, rfl, rfl⟩

/-- Modelled from the spec: the fixed, seeded shuffle KFoldStrategy applies
before partitioning, for reproducibility — a deterministic permutation of
the rows derived from the seed (a rotation). -/
def seededShuffle {α : Type} (seed : Nat) (rows : List α) : List α :=
  rows.rotate (seed % (rows.length + 1))

/-- Modelled from the spec: the near-equal fold sizes of k-fold partitioning —
the first `n % k` folds get `n / k + 1` rows, the rest `n / k`. -/
def foldSizes (n k : Nat) : List Nat :=
  (List.range k).map (fun i => n / k + if i < n % k then 1 else 0)

/-- Modelled from the spec: cut a row list into consecutive chunks of the
given sizes. -/
def splitSizes {α : Type} : List Nat → List α → List (List α)
  | [], _ => []
  | s :: ss, rows => rows.take s :: splitSizes ss (rows.drop s)

/-- Modelled from the spec: the `k` folds of a dataset — the seeded shuffle
cut into `k` near-equal consecutive chunks. -/
def kfolds {α : Type} (k seed : Nat) (rows : List α) : List (List α) :=
  splitSizes (foldSizes rows.length k) (seededShuffle seed rows)

/-- Modelled from the spec: the per-fold scores — for each fold, the model is
trained on the other `k − 1` folds (their concatenation) and scored on the
held-out fold; `score train holdout` is the model-building-and-scoring
capability. -/
def kfoldScores {α : Type} (k seed : Nat) (score : List α → List α → ℚ)
    (rows : List α) : List ℚ :=
  (List.range k).map (fun i =>
    score ((kfolds k seed rows).eraseIdx i).flatten
      ((kfolds k seed rows).getD i []))

/-- Modelled from the spec: the aggregated objective — the arithmetic mean of
the `k` fold scores. -/
def kfoldObjective {α : Type} (k seed : Nat) (score : List α → List α → ℚ)
    (rows : List α) : ℚ :=
  (kfoldScores k seed score rows).sum / (k : ℚ)

/-- Modelled from the spec: the error raised when the dataset has fewer rows
than the requested fold count. -/
inductive EvalError where
  | insufficientDataError

/-- Modelled from the spec: KFoldStrategy's evaluation of one candidate —
InsufficientDataError when the dataset has fewer rows than `k`, otherwise
the mean-of-folds objective. -/
def KFoldStrategy.evaluate {α : Type} (k seed : Nat)
    (score : List α → List α → ℚ) (rows : List α) : Except EvalError ℚ :=
  if rows.length < k then .error .insufficientDataError
  else .ok (kfoldObjective k seed score rows)

theorem foldSizes_sum (n k : Nat) (hk : 0 < k) : (foldSizes n k).sum = n := by
  have key : ∀ (K m a : Nat),
      ((List.range K).map (fun i => a + if i < m then 1 else 0)).sum
        = K * a + min m K := by
    intro K
    induction K with
    | zero => simp
    | succ K ih =>
        intro m a
        rw [List.range_succ, List.map_append, List.sum_append, ih]
        by_cases h : K < m <;> simp [h, Nat.succ_mul] <;> omega
  unfold foldSizes
  rw [key]
  have hmod : n % k < k := Nat.mod_lt _ hk
  have hdm := Nat.div_add_mod n k
  omega

theorem splitSizes_length {α : Type} :
    ∀ (ss : List Nat) (l : List α), (splitSizes ss l).length = ss.length := by
  intro ss
  induction ss with
  | nil => intro l; rfl
  | cons s ss' ih => intro l; simp [splitSizes, ih]

theorem splitSizes_flatten {α : Type} :
    ∀ (ss : List Nat) (l : List α), ss.sum = l.length →
      (splitSizes ss l).flatten = l := by
  intro ss
  induction ss with
  | nil =>
      intro l h
      simp only [List.sum_nil] at h
      rw [splitSizes, List.flatten_nil, (List.length_eq_zero.mp h.symm)]
  | cons s ss' ih =>
      intro l h
      simp only [List.sum_cons] at h
      rw [splitSizes, List.flatten_cons,
        ih (l.drop s) (by simp; omega), List.take_append_drop]

theorem splitSizes_map_length {α : Type} :
    ∀ (ss : List Nat) (l : List α), ss.sum ≤ l.length →
      (splitSizes ss l).map List.length = ss := by
  intro ss
  induction ss with
  | nil => intro l _; rfl
  | cons s ss' ih =>
      intro l h
      simp only [List.sum_cons] at h
      rw [splitSizes, List.map_cons, List.length_take,
        ih (l.drop s) (by simp; omega)]
      congr 1
      omega

theorem kfolds_map_length {α : Type} (k seed : Nat) (rows : List α)
    (hk : 0 < k) :
    (kfolds k seed rows).map List.length = foldSizes rows.length k := by
  unfold kfolds
  exact splitSizes_map_length _ _
    (by rw [foldSizes_sum _ _ hk, seededShuffle, List.length_rotate])

/-- C3: for `k > 0` and a dataset with at least `k` rows, KFoldStrategy
partitions the dataset into exactly `k` folds (their concatenation is a
permutation of the dataset) of near-equal size (each `n/k` or `n/k + 1`
rows); for each fold the candidate is trained on the concatenation of the
other `k − 1` folds and scored on the held-out fold; and the reported
objective is the arithmetic mean of the `k` fold scores.  In particular
`k = 5` on 100 rows produces 5 folds each scored on exactly 20 held-out
rows. -/
theorem c3_kfold_partition_mean {α : Type} (k seed : Nat) (rows : List α)
    (score : List α → List α → ℚ) (hk : 0 < k) (hkn : k ≤ rows.length) :
    (kfolds k seed rows).length = k ∧
    ((kfolds k seed rows).flatten).Perm rows ∧
    (∀ fold ∈ kfolds k seed rows,
      fold.length = rows.length / k ∨ fold.length = rows.length / k + 1) ∧
    (kfoldScores k seed score rows).length = k ∧
    (∀ i : Nat, i < k → (kfoldScores k seed score rows)[i]?
      = some (score ((kfolds k seed rows).eraseIdx i).flatten
          ((kfolds k seed rows).getD i []))) ∧
    KFoldStrategy.evaluate k seed score rows
      = .ok ((kfoldScores k seed score rows).sum / (k : ℚ)) ∧
    (k = 5 → rows.length = 100 →
      ∀ fold ∈ kfolds k seed rows, fold.length = 20) := by
  have hmaplen := kfolds_map_length k seed rows hk
  refine ⟨?_, ?_, ?_, ?_, ?_, ?_, ?_⟩
  · rw [kfolds, splitSizes_length, foldSizes, List.length_map,
      List.length_range]
  · rw [kfolds, splitSizes_flatten _ _
      (by rw [foldSizes_sum _ _ hk, seededShuffle, List.length_rotate])]
    exact List.rotate_perm rows _
  · intro fold hfold
    have hlen : fold.length ∈ foldSizes rows.length k := by
      rw [← hmaplen]
      exact List.mem_map_of_mem _ hfold
    rw [foldSizes] at hlen
    obtain ⟨i, _, hival⟩ := List.mem_map.mp hlen
    by_cases hi : i < rows.length % k
    · right; rw [← hival, if_pos hi]
    · left; rw [← hival, if_neg hi, Nat.add_zero]
  · rw [kfoldScores, List.length_map, List.length_range]
  · intro i hi
    rw [kfoldScores, List.getElem?_map,
      List.getElem?_range hi]
    rfl
  · rw [KFoldStrategy.evaluate, if_neg (by omega)]
    rfl
  · intro hk5 hn100 fold hfold
    have hlen : fold.length ∈ foldSizes rows.length k := by
      rw [← hmaplen]
      exact List.mem_map_of_mem _ hfold
    rw [foldSizes, hk5, hn100] at hlen
    obtain ⟨i, _, hival⟩ := List.mem_map.mp hlen
    simpa using hival.symm

/-- Witness for C3: `k = 5` with a concrete 100-row dataset (the numbers
0..99) and the row-count score: 5 folds, partition, sizes, and the
mean-of-5-scores objective, each fold holding exactly 20 rows. -/
theorem c3_kfold_partition_mean_witness :
    (kfolds 5 42 (List.range 100)).length = 5 ∧
    ((kfolds 5 42 (List.range 100)).flatten).Perm (List.range 100) ∧
    (∀ fold ∈ kfolds 5 42 (List.range 100),
      fold.length = (List.range 100).length / 5 ∨
      fold.length = (List.range 100).length / 5 + 1) ∧
    (kfoldScores 5 42 (fun train holdout => (train.length : ℚ) +
      (holdout.length : ℚ)) (List.range 100)).length = 5 ∧
    (∀ i : Nat, i < 5 → (kfoldScores 5 42 (fun train holdout =>
        (train.length : ℚ) + (holdout.length : ℚ)) (List.range 100))[i]?
      = some ((((kfolds 5 42 (List.range 100)).eraseIdx i).flatten.length : ℚ)
          + (((kfolds 5 42 (List.range 100)).getD i []).length : ℚ))) ∧
    KFoldStrategy.evaluate 5 42 (fun train holdout =>
        (train.length : ℚ) + (holdout.length : ℚ)) (List.range 100)
      = .ok ((kfoldScores 5 42 (fun train holdout =>
          (train.length : ℚ) + (holdout.length : ℚ))
          (List.range 100)).sum / (5 : ℚ)) ∧
    (5 = 5 → (List.range 100).length = 100 →
      ∀ fold ∈ kfolds 5 42 (List.range 100), fold.length = 20) :=
  c3_kfold_partition_mean 5 42 (List.range 100)
    (fun train holdout => (train.length : ℚ) + (holdout.length : ℚ))
    (by decide) (by simp)

/-- Modelled from the spec: the world an evaluation runs in — the training
data plus a log of the transient model trainings performed (each entry the
number of rows trained on).  Training events are the evaluator's only side
effect; the data is what the frame condition protects. -/
structure EvalWorld (α : Type) where
  trainingData : List α
  trainLog : List Nat

/-- Modelled from the spec: one transient model training — appends an event
to the log and touches nothing else. -/
def trainOnce {α : Type} (w : EvalWorld α) (trainRows : List α) : EvalWorld α :=
  { w with trainLog := w.trainLog ++ [trainRows.length] }

/-- Modelled from the spec: the two evaluation strategies — a single held-out
validation split, or k-fold cross-validation. -/
inductive Strategy (α : Type) where
  | holdout (validationData : List α)
  | kfold (k seed : Nat)

/-- Modelled from the spec: `evaluate(configuration, model_builder,
training_data, strategy)` — holdout trains once on the training data and
scores on the validation split; k-fold trains `k` times, once per held-out
fold, and reports the mean; the world is threaded through every transient
training.  `bld c train holdout` is the model-building capability: build a
fresh model from the configuration, fit it on `train`, score it on
`holdout`. -/
def Evaluator.evaluate {α : Type} (c : Configuration)
    (bld : Configuration → List α → List α → ℚ) (strategy : Strategy α)
    (w : EvalWorld α) : Except EvalError ℚ × EvalWorld α :=
  match strategy with
  | .holdout valid =>
      (.ok (bld c w.trainingData valid), trainOnce w w.trainingData)
  | .kfold k seed =>
      (KFoldStrategy.evaluate k seed (bld c) w.trainingData,
       if w.trainingData.length < k then w
       else (List.range k).foldl
         (fun acc i => trainOnce acc
           (((kfolds k seed w.trainingData).eraseIdx i).flatten)) w)

theorem foldl_trainOnce_spec {α : Type} (f : EvalWorld α → Nat → List α) :
    ∀ (is : List Nat) (w : EvalWorld α),
      ((is.foldl (fun acc i => trainOnce acc (f acc i)) w).trainingData
        = w.trainingData) ∧
      ((is.foldl (fun acc i => trainOnce acc (f acc i)) w).trainLog.length
        = w.trainLog.length + is.length) := by
  intro is
  induction is with
  | nil => intro w; exact ⟨rfl, by simp⟩
  | cons i is' ih =>
      intro w
      obtain ⟨hdata, hlog⟩ := ih (trainOnce w (f w i))
      refine ⟨hdata, ?_⟩
      rw [List.foldl_cons, hlog]
      simp [trainOnce]
      omega

/-- C8: evaluation has no side effect on the dataset — for every
configuration, model-building capability, strategy and world, the training
data after `evaluate` is exactly the training data before, even though the
evaluation does perform transient model trainings (one for holdout, `k` for
a feasible k-fold). -/
theorem c8_evaluate_preserves_training_data {α : Type} (c : Configuration)
    (bld : Configuration → List α → List α → ℚ) (strategy : Strategy α)
    (w : EvalWorld α) :
    (Evaluator.evaluate c bld strategy w).2.trainingData = w.trainingData ∧
    (∀ valid, strategy = .holdout valid →
      (Evaluator.evaluate c bld strategy w).2.trainLog.length
        = w.trainLog.length + 1) ∧
    (∀ k seed : Nat, strategy = .kfold k seed → k ≤ w.trainingData.length →
      (Evaluator.evaluate c bld strategy w).2.trainLog.length
        = w.trainLog.length + k) := by
  cases strategy with
  | holdout valid =>
      refine ⟨rfl, ?_, ?_⟩
      · intro _ _
        simp [Evaluator.evaluate, trainOnce]
      · intro k seed h
        exact absurd h (fun heq => nomatch heq)
  | kfold k seed =>
      by_cases hfeas : w.trainingData.length < k
      · refine ⟨?_, ?_, ?_⟩
        · simp [Evaluator.evaluate, if_pos hfeas]
        · intro valid h
          exact absurd h (fun heq => nomatch heq)
        · intro k' seed' h hk'
          have hkk : k' = k := by cases h; rfl
          omega
      · obtain ⟨hdata, hlog⟩ := foldl_trainOnce_spec
          (fun acc i => ((kfolds k seed w.trainingData).eraseIdx i).flatten)
          (List.range k) w
        refine ⟨?_, ?_, ?_⟩
        · simpa [Evaluator.evaluate, if_neg hfeas] using hdata
        · intro valid h
          exact absurd h (fun heq => nomatch heq)
        · intro k' seed' h _
          have hkk : k' = k := by cases h; rfl
          subst hkk
          simp only [Evaluator.evaluate, if_neg hfeas]
          rw [hlog, List.length_range]

/-- Witness for C8: a concrete 10-row dataset scored under 2-fold
cross-validation keeps its training data intact while logging the two
transient trainings. -/
theorem c8_evaluate_preserves_training_data_witness :
    (Evaluator.evaluate [] (fun _ train _ => (train.length : ℚ))
        (Strategy.kfold 2 0) ⟨List.range 10, []⟩).2.trainingData
      = List.range 10 ∧
    (Evaluator.evaluate [] (fun _ train _ => (train.length : ℚ))
        (Strategy.kfold 2 0) ⟨List.range 10, []⟩).2.trainLog.length
      = ([] : List Nat).length + 2 :=
  ⟨(c8_evaluate_preserves_training_data [] _ _ _).1,
   (c8_evaluate_preserves_training_data [] _ _ _).2.2 2 0 rfl (by simp)⟩

/-- Activation functions the notebook's `build_model` uses. -/
inductive Activation where
  | relu
  | softmax
deriving DecidableEq

/-- A layer of the notebook's Sequential model. -/
inductive Layer where
  | flatten
  | dense (units : Nat) (activation : Activation)
deriving DecidableEq

/-- The compiled model `build_model` returns: the layer stack, the SGD
optimizer's learning rate, and the compile-time loss. -/
structure KerasModel where
  layers : List Layer
  learningRate : ℝ
  loss : String

/-- Embedded from `build_model` in `Chap_10_MNIST_Fashion_KerasTuner.ipynb`:
a fresh Sequential model — a Flatten layer, then `n_hidden` Dense layers of
`n_neurons` units with ReLU activation, then a final Dense layer of 10 units
with softmax activation — compiled with `SGD(learning_rate)` and sparse
categorical cross-entropy loss. -/
def build_model (n_hidden n_neurons : Nat) (learning_rate : ℝ) : KerasModel :=
  { layers := [Layer.flatten]
      ++ List.replicate n_hidden (Layer.dense n_neurons .relu)
      ++ [Layer.dense 10 .softmax]
    learningRate := learning_rate
    loss := "sparse_categorical_crossentropy" }

/-- A hidden layer of the notebook's model: a Dense layer with ReLU. -/
def Layer.isHiddenDense : Layer → Bool
  | .dense _ .relu => true
  | _ => false

/-- The unit count of the model's final (output) layer. -/
def KerasModel.outputUnits (m : KerasModel) : Option Nat :=
  match m.layers.getLast? with
  | some (.dense u _) => some u
  | _ => none

theorem countP_replicate_hidden (n u : Nat) :
    (List.replicate n (Layer.dense u .relu)).countP Layer.isHiddenDense
      = n := by
  induction n with
  | zero => rfl
  | succ n ih => rw [List.replicate_succ, List.countP_cons]; simp [ih, Layer.isHiddenDense]

/-- The notebook's hyperparameter space, embedded from the `hp.Int` /
`hp.Float` declarations in `build_model`: `n_hidden ∈ [1, 10]`,
`n_neurons ∈ [10, 200]`, `learning_rate ∈ [1e-4, 1e-2]` log-sampled. -/
def mnistSearchSpace : SearchSpace :=
  [⟨"n_hidden", .intRange 1 10⟩,
   ⟨"n_neurons", .intRange 10 200⟩,
   ⟨"learning_rate", .floatRange (mkRat 1 10000) (mkRat 1 100) true⟩]

/-- C9: for every configuration with `n_hidden ≥ 1` (as the declaration
`hp.Int("n_hidden", min_value=1, max_value=10)` guarantees for every sampled
configuration), `build_model` returns a model whose architecture is exactly
a Flatten layer, then `n_hidden` Dense(`n_neurons`, relu) layers, then the
fixed Dense(10, softmax) output layer: it has exactly `n_hidden ≥ 1` hidden
layers and exactly 10 output units, regardless of the configuration. -/
theorem c9_build_model_architecture (n_hidden n_neurons : Nat)
    (learning_rate : ℝ) (h1 : 1 ≤ n_hidden) :
    (build_model n_hidden n_neurons learning_rate).layers
      = [Layer.flatten]
        ++ List.replicate n_hidden (Layer.dense n_neurons .relu)
        ++ [Layer.dense 10 .softmax] ∧
    (build_model n_hidden n_neurons learning_rate).layers.countP
        Layer.isHiddenDense = n_hidden ∧
    1 ≤ (build_model n_hidden n_neurons learning_rate).layers.countP
        Layer.isHiddenDense ∧
    (build_model n_hidden n_neurons learning_rate).outputUnits = some 10 := by
  have hcount : (build_model n_hidden n_neurons learning_rate).layers.countP
      Layer.isHiddenDense = n_hidden := by
    show (([Layer.flatten]
      ++ List.replicate n_hidden (Layer.dense n_neurons .relu)
      ++ [Layer.dense 10 .softmax]).countP Layer.isHiddenDense) = n_hidden
    rw [List.countP_append, List.countP_append, countP_replicate_hidden]
    simp [List.countP_cons, Layer.isHiddenDense]
  refine ⟨rfl, hcount, by omega, ?_⟩
  show KerasModel.outputUnits _ = some 10
  rw [KerasModel.outputUnits]
  have hlast : (build_model n_hidden n_neurons learning_rate).layers.getLast?
      = some (Layer.dense 10 .softmax) := by
    show (([Layer.flatten]
      ++ List.replicate n_hidden (Layer.dense n_neurons .relu))
      ++ [Layer.dense 10 .softmax]).getLast? = _
    rw [List.getLast?_concat]
  rw [hlast]

/-- Witness for C9: the notebook's default configuration `n_hidden = 2`,
`n_neurons = 50`: two hidden layers, 10 outputs. -/
theorem c9_build_model_architecture_witness :
    1 ≤ 2 ∧
    ((build_model 2 50 1).layers
      = [Layer.flatten]
        ++ List.replicate 2 (Layer.dense 50 .relu)
        ++ [Layer.dense 10 .softmax] ∧
    (build_model 2 50 1).layers.countP Layer.isHiddenDense = 2 ∧
    1 ≤ (build_model 2 50 1).layers.countP Layer.isHiddenDense ∧
    (build_model 2 50 1).outputUnits = some 10) :=
  ⟨by decide, c9_build_model_architecture 2 50 1 (by decide)⟩

/-- Embedded from the notebook: scale pixel intensities down to the 0-1
range by dividing by 255. -/
def scalePixels (rows : List ℚ) : List ℚ := rows.map (fun x => x / 255)

/-- Embedded from the notebook (`X_valid, X_train = X_train_full[:5000] /
255., X_train_full[5000:] / 255.`): the validation split is the first 5000
rows of the full training set and the training split is the rows from 5000
onward, both scaled. -/
def notebookSplit (trainFullX : List ℚ) : List ℚ × List ℚ :=
  (scalePixels (trainFullX.take 5000), scalePixels (trainFullX.drop 5000))

/-- Embedded from the notebook: the whole tuning pipeline — split the full
training set, run the seeded random search on the training and validation
splits only (`random_search_tuner.search(X_train, y_train, ...,
validation_data=(X_valid, y_valid))`), and only afterwards evaluate the best
model on the test set (`best_model.evaluate(X_test, y_test)`).
`trainScore c train valid` abstracts fitting `build_model(c)` on the
training split and measuring val_accuracy on the validation split;
`testEval` abstracts the final test-set evaluation of the search outcome. -/
noncomputable def notebookRun
    (trainScore : Configuration → List ℚ × List Nat → List ℚ × List Nat → ℚ)
    (testEval : RunResult → List ℚ × List Nat → ℚ)
    (trainFullX : List ℚ) (trainFullY : List Nat)
    (testX : List ℚ) (testY : List Nat) : RunResult × ℚ :=
  let split := notebookSplit trainFullX
  let vy := trainFullY.take 5000
  let ty := trainFullY.drop 5000
  let result := SearchOrchestrator.run .maximize
    (fun c => .ok (trainScore c (split.2, ty) (split.1, vy)))
    (randomCandidates mnistSearchSpace 42 60)
  (result, testEval result (scalePixels testX, testY))

/-- C10: the notebook's model selection is independent of the test set.  The
validation rows are exactly the (scaled) rows of the full training set at
indices below 5000 and the training rows exactly those at indices 5000
onward — disjoint source index ranges — the two splits together exhaust the
full set, and two pipeline runs that differ only in the test set produce the
identical search outcome (hence the same best trial/configuration): the test
data enters only the final post-search evaluation. -/
theorem c10_selection_independent_of_test
    (trainScore : Configuration → List ℚ × List Nat → List ℚ × List Nat → ℚ)
    (testEval : RunResult → List ℚ × List Nat → ℚ)
    (trainFullX : List ℚ) (trainFullY : List Nat)
    (testX₁ : List ℚ) (testY₁ : List Nat)
    (testX₂ : List ℚ) (testY₂ : List Nat) :
    (∀ i : Nat, i < 5000 →
      ((notebookSplit trainFullX).1)[i]?
        = (trainFullX[i]?).map (fun x => x / 255)) ∧
    (∀ j : Nat, ((notebookSplit trainFullX).2)[j]?
        = (trainFullX[5000 + j]?).map (fun x => x / 255)) ∧
    (trainFullX.take 5000 ++ trainFullX.drop 5000 = trainFullX) ∧
    ((notebookRun trainScore testEval trainFullX trainFullY testX₁ testY₁).1
      = (notebookRun trainScore testEval trainFullX trainFullY
          testX₂ testY₂).1) := by
  refine ⟨?_, ?_, List.take_append_drop 5000 trainFullX, rfl⟩
  · intro i hi
    show ((trainFullX.take 5000).map (fun x => x / 255))[i]? = _
    rw [List.getElem?_map, List.getElem?_take, if_pos hi]
  · intro j
    show ((trainFullX.drop 5000).map (fun x => x / 255))[j]? = _
    rw [List.getElem?_map, List.getElem?_drop]

/-- Witness for C10: a one-row full training set and two different test
sets — the validation row is the scaled row 0, and the search outcome is
identical across the two test sets. -/
theorem c10_selection_independent_of_test_witness :
    (0 : Nat) < 5000 ∧
    ((notebookSplit [510]).1)[0]?
      = (([510] : List ℚ)[0]?).map (fun x => x / 255) ∧
    ((notebookRun (fun _ _ _ => 0) (fun _ _ => 0) [510] [] [1] [2]).1
      = (notebookRun (fun _ _ _ => 0) (fun _ _ => 0) [510] [] [3] [4]).1) :=
  ⟨by decide,
   (c10_selection_independent_of_test (fun _ _ _ => 0) (fun _ _ => 0)
     [510] [] [1] [2] [3] [4]).1 0 (by decide),
   (c10_selection_independent_of_test (fun _ _ _ => 0) (fun _ _ => 0)
     [510] [] [1] [2] [3] [4]).2.2.2⟩

end MLExamples
